import Mathlib

/-!
Shallow embedding of the `bufio` crate (`src/writer.rs`): a bounded
writer over a caller-supplied, possibly uninitialized memory block,
together with proofs of the specified properties.
-/

namespace Bufio

/-- A memory cell of the caller-provided buffer: `none` models an
uninitialized `MaybeUninit<u8>` cell and `some b` a cell holding the
byte value `b`. -/
abbrev Cell := Option Nat

/-- Embedding of `bufio::Writer`: the borrowed buffer of
possibly-uninitialized cells and the count `written` of leading bytes
written so far. The capacity is `buffer.length`, fixed at construction
since no operation changes the buffer's length. -/
structure Writer where
  buffer : List Cell
  written : Nat
deriving DecidableEq

/-- Embedding of `io::Error`. The writer never constructs one; the
single constructor only keeps the result type two-sided like
`io::Result`. -/
inductive IoError where
  | other
deriving DecidableEq

/-- `Writer::new`: use the provided slice as buffer memory, with
`written = 0`. -/
def Writer.new (buffer : List Cell) : Writer :=
  { buffer := buffer, written := 0 }

/-- `Writer::written`: the slice `buffer[0..written]`, i.e. the cells
of the initialized prefix (the source reinterprets them as plain
bytes). -/
def Writer.writtenSlice (w : Writer) : List Cell :=
  w.buffer.take w.written

/-- `Writer::reset`: set `written` back to `0`, leaving the buffer
contents alone. -/
def Writer.reset (w : Writer) : Writer :=
  { w with written := 0 }

/-- Byte-by-byte copy of `src` into `buf` starting at index `start`:
the model of `ptr.copy_from_nonoverlapping(data.as_ptr(), len)` where
`ptr` points at `buf[start]` and `src` holds the `len` source bytes. -/
def copyFrom (buf : List Cell) (start : Nat) : List Nat → List Cell
  | [] => buf
  | b :: rest => copyFrom (buf.set start (some b)) (start + 1) rest

/-- Number of bytes a `write` call accepts in state `w`:
`min(data.len(), self.buffer.len() - self.written)`. -/
def Writer.acceptCount (w : Writer) (data : List Nat) : Nat :=
  min data.length (w.buffer.length - w.written)

/-- Embedding of `<Writer as io::Write>::write`: copy
`len = min(data.len(), buffer.len() - written)` bytes of `data` into
the buffer at offset `written`, advance `written` by `len`, and return
`Ok(len)`. -/
def Writer.write (w : Writer) (data : List Nat) :
    Except IoError (Writer × Nat) :=
  let len := min data.length (w.buffer.length - w.written)
  let buffer := copyFrom w.buffer w.written (data.take len)
  .ok ({ buffer := buffer, written := w.written + len }, len)

/-- Embedding of `<Writer as io::Write>::flush`: `Ok(())`, no state
change. -/
def Writer.flush (w : Writer) : Except IoError (Writer × Unit) :=
  .ok (w, ())

/-- The operations a caller can perform on an existing writer. -/
inductive Op where
  | write (data : List Nat)
  | reset
  | flush
deriving DecidableEq

/-- The writer state after one operation. -/
def Writer.step (w : Writer) : Op → Writer
  | .write data =>
    match w.write data with
    | .ok (w', _) => w'
    | .error _ => w
  | .reset => w.reset
  | .flush =>
    match w.flush with
    | .ok (w', _) => w'
    | .error _ => w

/-- The writer state after a sequence of operations. -/
def Writer.run (w : Writer) : List Op → Writer
  | [] => w
  | op :: rest => (w.step op).run rest

/-- The bytes accepted by the `write` calls since the last `reset` (or
since the start of the run), along a run beginning in state `w` with
the bytes `acc` already accepted. -/
def acceptedRun (w : Writer) (acc : List Nat) : List Op → List Nat
  | [] => acc
  | .write data :: rest =>
    acceptedRun (w.step (.write data))
      (acc ++ data.take (w.acceptCount data)) rest
  | .reset :: rest => acceptedRun (w.step .reset) [] rest
  | .flush :: rest => acceptedRun (w.step .flush) acc rest

/-! Helper lemmas about the copy primitive and the step semantics. -/

/-- Setting cell `k` commutes with taking `k + 1` cells. -/
theorem take_set_succ (v : Cell) : ∀ (l : List Cell) (k : Nat), k < l.length →
    (l.set k v).take (k + 1) = l.take k ++ [v] := by
  intro l
  induction l with
  | nil => intro k h; simp at h
  | cons a t ih =>
    intro k h
    cases k with
    | zero => simp
    | succ k =>
      have hk : k < t.length := by simpa using h
      show a :: (t.set k v).take (k + 1) = a :: (t.take k ++ [v])
      rw [ih k hk]

/-- The copy never changes the buffer's length. -/
theorem copyFrom_length : ∀ (src : List Nat) (buf : List Cell) (start : Nat),
    (copyFrom buf start src).length = buf.length
  | [], _, _ => rfl
  | b :: rest, buf, start => by
    show (copyFrom (buf.set start (some b)) (start + 1) rest).length = buf.length
    rw [copyFrom_length rest]
    exact List.length_set ..

/-- Cells outside the destination range `[start, start + src.length)`
are untouched by the copy. -/
theorem copyFrom_frame : ∀ (src : List Nat) (buf : List Cell) (start i : Nat),
    i < start ∨ start + src.length ≤ i →
    (copyFrom buf start src)[i]? = buf[i]?
  | [], _, _, _, _ => rfl
  | b :: rest, buf, start, i, h => by
    show (copyFrom (buf.set start (some b)) (start + 1) rest)[i]? = buf[i]?
    have h' : i < start + 1 ∨ (start + 1) + rest.length ≤ i := by
      rcases h with h | h
      · exact Or.inl (Nat.lt_succ_of_lt h)
      · right
        simp only [List.length_cons] at h
        omega
    rw [copyFrom_frame rest _ _ _ h']
    have hne : start ≠ i := by
      rcases h with h | h
      · omega
      · simp only [List.length_cons] at h
        omega
    exact List.getElem?_set_ne hne

/-- Characterization of the copied range: when the copy fits, the
buffer up to `start + src.length` becomes the old prefix followed by
the source bytes. -/
theorem copyFrom_take : ∀ (src : List Nat) (buf : List Cell) (start : Nat),
    start + src.length ≤ buf.length →
    (copyFrom buf start src).take (start + src.length)
      = buf.take start ++ src.map some
  | [], buf, start, _ => by
    show buf.take (start + 0) = buf.take start ++ []
    simp
  | b :: rest, buf, start, h => by
    have hlt : start < buf.length := by
      simp only [List.length_cons] at h
      omega
    show (copyFrom (buf.set start (some b)) (start + 1) rest).take
        (start + ((b :: rest).length)) = buf.take start ++ (b :: rest).map some
    have harr : start + (b :: rest).length = (start + 1) + rest.length := by
      simp only [List.length_cons]
      omega
    have hfit : (start + 1) + rest.length ≤ (buf.set start (some b)).length := by
      simp only [List.length_set]
      simp only [List.length_cons] at h
      omega
    rw [harr, copyFrom_take rest _ _ hfit, take_set_succ (some b) buf start hlt]
    simp

/-- A step never changes the buffer's length (the capacity). -/
theorem step_capacity (w : Writer) (op : Op) :
    (w.step op).buffer.length = w.buffer.length := by
  cases op with
  | write data => exact copyFrom_length ..
  | reset => rfl
  | flush => rfl

/-- A step preserves the invariant `written ≤ capacity`. -/
theorem step_invariant (w : Writer) (op : Op)
    (h : w.written ≤ w.buffer.length) :
    (w.step op).written ≤ (w.step op).buffer.length := by
  cases op with
  | write data =>
    show w.written + w.acceptCount data ≤ (copyFrom ..).length
    rw [copyFrom_length]
    have := Nat.min_le_right data.length (w.buffer.length - w.written)
    unfold Writer.acceptCount
    omega
  | reset => exact Nat.zero_le _
  | flush => exact h

/-- The view after a `write` step is the old view followed by the
accepted bytes. -/
theorem writtenSlice_after_write (w : Writer) (data : List Nat)
    (h : w.written ≤ w.buffer.length) :
    (w.step (.write data)).writtenSlice
      = w.writtenSlice ++ (data.take (w.acceptCount data)).map some := by
  have hcnt : w.acceptCount data ≤ data.length := Nat.min_le_left ..
  have hlen : (data.take (w.acceptCount data)).length = w.acceptCount data := by
    simp only [List.length_take]
    omega
  show (copyFrom w.buffer w.written (data.take (w.acceptCount data))).take
      (w.written + w.acceptCount data) = _
  have hfit : w.written + (data.take (w.acceptCount data)).length
      ≤ w.buffer.length := by
    rw [hlen]
    have := Nat.min_le_right data.length (w.buffer.length - w.written)
    unfold Writer.acceptCount
    omega
  rw [show w.written + w.acceptCount data
      = w.written + (data.take (w.acceptCount data)).length from by rw [hlen]]
  rw [copyFrom_take _ _ _ hfit]
  rfl

/-- Along any run, the view is the image under `some` of the bytes
accepted since the last reset, provided this held at the start. -/
theorem run_view_aux : ∀ (ops : List Op) (w : Writer) (acc : List Nat),
    w.written ≤ w.buffer.length →
    w.writtenSlice = acc.map some →
    (w.run ops).writtenSlice = (acceptedRun w acc ops).map some := by
  intro ops
  induction ops with
  | nil =>
    intro w acc _ hview
    exact hview
  | cons op rest ih =>
    intro w acc h hview
    cases op with
    | write data =>
      show ((w.step (.write data)).run rest).writtenSlice
        = (acceptedRun (w.step (.write data))
            (acc ++ data.take (w.acceptCount data)) rest).map some
      refine ih (w.step (.write data)) _ (step_invariant w _ h) ?_
      rw [writtenSlice_after_write w data h, hview, List.map_append]
    | reset =>
      show ((w.step .reset).run rest).writtenSlice
        = (acceptedRun (w.step .reset) [] rest).map some
      exact ih (w.step .reset) [] (step_invariant w _ h) rfl
    | flush =>
      show ((w.step .flush).run rest).writtenSlice
        = (acceptedRun (w.step .flush) acc rest).map some
      exact ih (w.step .flush) acc (step_invariant w _ h) hview

/-- Along any run, the invariant `written ≤ capacity` and the capacity
itself are preserved. -/
theorem run_invariant_aux : ∀ (ops : List Op) (w : Writer),
    w.written ≤ w.buffer.length →
    (w.run ops).written ≤ (w.run ops).buffer.length ∧
      (w.run ops).buffer.length = w.buffer.length := by
  intro ops
  induction ops with
  | nil =>
    intro w h
    exact ⟨h, rfl⟩
  | cons op rest ih =>
    intro w h
    have hstep := step_invariant w op h
    have hcap := step_capacity w op
    have := ih (w.step op) hstep
    exact ⟨this.1, this.2.trans hcap⟩

/-- Writing the accepted portion of the input behaves exactly like
writing the whole input: the call never reads `data` beyond the
accepted count. -/
theorem write_take_acceptCount (w : Writer) (data : List Nat) :
    w.write (data.take (w.acceptCount data)) = w.write data := by
  unfold Writer.write Writer.acceptCount
  simp only [List.length_take, List.take_take]
  have hmin : min (min (min data.length (w.buffer.length - w.written)) data.length)
      (w.buffer.length - w.written) = min data.length (w.buffer.length - w.written) := by
    omega
  rw [hmin, min_self]

/-! The claims. -/

/-- C1: for every writer state satisfying the structural invariant and
every input `data`, `write data` returns
`n = min (data.length) (capacity - written)`, advances `written` by
`n`, copies exactly the first `n` bytes of `data` into the buffer at
positions `[written, written + n)` (the new initialized prefix is the
old one followed by those bytes), and never fails: the result is
always `Except.ok`. -/
theorem write_correct (w : Writer) (data : List Nat)
    (h : w.written ≤ w.buffer.length) :
    ∃ w', w.write data
        = Except.ok (w', min data.length (w.buffer.length - w.written)) ∧
      w'.written = w.written + min data.length (w.buffer.length - w.written) ∧
      w'.buffer.take w'.written
        = w.buffer.take w.written
          ++ (data.take (min data.length (w.buffer.length - w.written))).map some := by
  refine ⟨w.step (.write data), rfl, rfl, ?_⟩
  exact writtenSlice_after_write w data h

/-- Witness for C1 at a concrete input: a writer over two
uninitialized cells accepting two of three offered bytes. -/
theorem write_correct_witness :
    (Writer.mk [none, none] 0).written
        ≤ (Writer.mk [none, none] 0).buffer.length ∧
    ∃ w', (Writer.mk [none, none] 0).write [3, 4, 5]
        = Except.ok (w', min ([3, 4, 5] : List Nat).length
            ((Writer.mk [none, none] 0).buffer.length
              - (Writer.mk [none, none] 0).written)) ∧
      w'.written = (Writer.mk [none, none] 0).written
          + min ([3, 4, 5] : List Nat).length
            ((Writer.mk [none, none] 0).buffer.length
              - (Writer.mk [none, none] 0).written) ∧
      w'.buffer.take w'.written
        = (Writer.mk [none, none] 0).buffer.take (Writer.mk [none, none] 0).written
          ++ (([3, 4, 5] : List Nat).take (min ([3, 4, 5] : List Nat).length
              ((Writer.mk [none, none] 0).buffer.length
                - (Writer.mk [none, none] 0).written))).map some :=
  ⟨by decide, write_correct (Writer.mk [none, none] 0) [3, 4, 5] (by decide)⟩

/-- C2: after any run of operations from a fresh writer, the view is
exactly the `some`-image of the bytes accepted by the `write` calls
since the last reset (or since construction); and one `write` call
returning `n` extends the view by exactly the first `n` bytes of its
input. -/
theorem view_is_accepted (buf : List Cell) (ops : List Op) (w : Writer)
    (data : List Nat) (w' : Writer) (n : Nat)
    (hw : w.written ≤ w.buffer.length)
    (hwrite : w.write data = .ok (w', n)) :
    ((Writer.new buf).run ops).writtenSlice
        = (acceptedRun (Writer.new buf) [] ops).map some ∧
    w'.writtenSlice = w.writtenSlice ++ (data.take n).map some := by
  constructor
  · exact run_view_aux ops (Writer.new buf) [] (Nat.zero_le _) rfl
  · have h2 : (w.step (.write data), w.acceptCount data) = (w', n) := by
      injection hwrite
    have hw' : w.step (.write data) = w' := congrArg Prod.fst h2
    have hn : w.acceptCount data = n := congrArg Prod.snd h2
    rw [← hw', ← hn]
    exact writtenSlice_after_write w data hw

/-- Witness for C2 at a concrete run and a concrete write call. -/
theorem view_is_accepted_witness :
    (Writer.mk [none, none] 0).written
        ≤ (Writer.mk [none, none] 0).buffer.length ∧
    (Writer.mk [none, none] 0).write [7]
        = .ok (Writer.mk [some 7, none] 1, 1) ∧
    (((Writer.new [none]).run [Op.write [7], Op.flush]).writtenSlice
        = (acceptedRun (Writer.new [none]) [] [Op.write [7], Op.flush]).map some ∧
      (Writer.mk [some 7, none] 1).writtenSlice
        = (Writer.mk [none, none] 0).writtenSlice
          ++ (([7] : List Nat).take 1).map some) :=
  ⟨by decide, rfl,
    view_is_accepted [none] [Op.write [7], Op.flush] (Writer.mk [none, none] 0)
      [7] (Writer.mk [some 7, none] 1) 1 (by decide) rfl⟩

/-- C3: starting from any buffer, after any sequence of operations the
invariant `0 ≤ written ≤ capacity` holds, where the capacity is the
length of the buffer fixed at construction (`written` is a natural
number, so `0 ≤ written` is implicit in the type). -/
theorem run_written_le_capacity (buf : List Cell) (ops : List Op) :
    ((Writer.new buf).run ops).written ≤ buf.length := by
  have h := run_invariant_aux ops (Writer.new buf) (Nat.zero_le _)
  exact le_of_le_of_eq h.1 h.2

/-- C4: in every reachable state the view is exactly the first
`written` cells of the buffer, its length equals `written`, never
exceeds the capacity, and it equals the `some`-image of the bytes
accepted since the last reset — so its length never exceeds the bytes
copied in since then and it exposes only cells this writer
initialized. -/
theorem writtenSlice_correct (buf : List Cell) (ops : List Op) :
    ((Writer.new buf).run ops).writtenSlice
        = ((Writer.new buf).run ops).buffer.take ((Writer.new buf).run ops).written ∧
    ((Writer.new buf).run ops).writtenSlice.length
        = ((Writer.new buf).run ops).written ∧
    ((Writer.new buf).run ops).writtenSlice.length ≤ buf.length ∧
    ((Writer.new buf).run ops).writtenSlice
        = (acceptedRun (Writer.new buf) [] ops).map some := by
  have hinv := run_invariant_aux ops (Writer.new buf) (Nat.zero_le _)
  have h1 := hinv.1
  have h2 := hinv.2
  have hb : (Writer.new buf).buffer.length = buf.length := rfl
  have hlen : ((Writer.new buf).run ops).writtenSlice.length
      = ((Writer.new buf).run ops).written := by
    show (((Writer.new buf).run ops).buffer.take _).length = _
    rw [List.length_take]
    omega
  refine ⟨rfl, hlen, ?_, run_view_aux ops (Writer.new buf) [] (Nat.zero_le _) rfl⟩
  rw [hlen]
  omega

/-- C5: once `written` equals the capacity, `write` returns `Ok 0` and
leaves the writer — `written` and every buffer cell — unchanged. -/
theorem write_saturated (w : Writer) (data : List Nat)
    (h : w.written = w.buffer.length) :
    w.write data = .ok (w, 0) := by
  have h0 : w.buffer.length - w.written = 0 := by omega
  unfold Writer.write
  rw [h0]
  simp [copyFrom]

/-- Witness for C5: a full one-cell writer rejects further bytes. -/
theorem write_saturated_witness :
    (Writer.mk [some 1] 1).written = (Writer.mk [some 1] 1).buffer.length ∧
    (Writer.mk [some 1] 1).write [2, 3] = .ok (Writer.mk [some 1] 1, 0) :=
  ⟨rfl, write_saturated (Writer.mk [some 1] 1) [2, 3] rfl⟩

/-- C6: `reset` sets `written` to `0`, leaves every buffer cell
unchanged, and the view immediately afterwards is empty, for every
prior state. -/
theorem reset_correct (w : Writer) :
    w.reset.written = 0 ∧ w.reset.buffer = w.buffer ∧ w.reset.writtenSlice = [] :=
  ⟨rfl, rfl, rfl⟩

/-- C7: a `write` call leaves every buffer cell outside the copied
range `[written, written + n)` unchanged, and reads no byte of `data`
beyond index `n`: the call behaves identically on `data` truncated to
the accepted count. -/
theorem write_frame (w : Writer) (data : List Nat) :
    (∀ w' n, w.write data = .ok (w', n) →
      ∀ i, i < w.written ∨ w.written + n ≤ i → w'.buffer[i]? = w.buffer[i]?) ∧
    w.write (data.take (min data.length (w.buffer.length - w.written)))
      = w.write data := by
  constructor
  · intro w' n hwrite i hi
    have h2 : (w.step (.write data), w.acceptCount data) = (w', n) := by
      injection hwrite
    have hw' : w.step (.write data) = w' := congrArg Prod.fst h2
    have hn : w.acceptCount data = n := congrArg Prod.snd h2
    rw [← hw']
    show (copyFrom w.buffer w.written (data.take (w.acceptCount data)))[i]?
      = w.buffer[i]?
    refine copyFrom_frame _ _ _ _ ?_
    have hlen : (data.take (w.acceptCount data)).length = w.acceptCount data := by
      have hle := Nat.min_le_left data.length (w.buffer.length - w.written)
      simp only [List.length_take]
      unfold Writer.acceptCount
      omega
    rw [hlen, hn]
    exact hi
  · exact write_take_acceptCount w data

/-- Witness for C7: the cell before the copied range survives a
concrete write. -/
theorem write_frame_witness :
    (Writer.mk [some 9, none, none] 1).write [5]
        = .ok (Writer.mk [some 9, some 5, none] 2, 1) ∧
    (Writer.mk [some 9, some 5, none] 2).buffer[0]?
        = (Writer.mk [some 9, none, none] 1).buffer[0]? :=
  ⟨rfl, (write_frame (Writer.mk [some 9, none, none] 1) [5]).1
    (Writer.mk [some 9, some 5, none] 2) 1 rfl 0 (Or.inl (by decide))⟩

/-- C8: `flush` always returns success and changes nothing: the writer
state after the call is identical to the state before it. -/
theorem flush_correct (w : Writer) :
    w.flush = .ok (w, ()) ∧ w.step .flush = w :=
  ⟨rfl, rfl⟩

/-- C9: the concrete capacity-8 scenario: the fresh view is empty;
writing "1" returns 1 and the view is "1"; writing "23" returns 2 and
the view is "123"; `reset` empties the view; writing "456" returns 3
and the view is "456"; writing "123456" returns 5 and the view is
"45612345"; writing "1337" returns 0 and the view is unchanged (all
strings as their ASCII byte values). -/
theorem scenario_cap8 :
    (Writer.new (List.replicate 8 none)).writtenSlice = [] ∧
    (Writer.new (List.replicate 8 none)).write [49]
        = .ok (Writer.mk [some 49, none, none, none, none, none, none, none] 1, 1) ∧
    (Writer.mk [some 49, none, none, none, none, none, none, none] 1).writtenSlice
        = [some 49] ∧
    (Writer.mk [some 49, none, none, none, none, none, none, none] 1).write [50, 51]
        = .ok (Writer.mk [some 49, some 50, some 51, none, none, none, none, none] 3, 2) ∧
    (Writer.mk [some 49, some 50, some 51, none, none, none, none, none] 3).writtenSlice
        = [some 49, some 50, some 51] ∧
    (Writer.mk [some 49, some 50, some 51, none, none, none, none, none] 3).reset
        = Writer.mk [some 49, some 50, some 51, none, none, none, none, none] 0 ∧
    (Writer.mk [some 49, some 50, some 51, none, none, none, none, none] 0).writtenSlice
        = [] ∧
    (Writer.mk [some 49, some 50, some 51, none, none, none, none, none] 0).write
        [52, 53, 54]
        = .ok (Writer.mk [some 52, some 53, some 54, none, none, none, none, none] 3, 3) ∧
    (Writer.mk [some 52, some 53, some 54, none, none, none, none, none] 3).writtenSlice
        = [some 52, some 53, some 54] ∧
    (Writer.mk [some 52, some 53, some 54, none, none, none, none, none] 3).write
        [49, 50, 51, 52, 53, 54]
        = .ok (Writer.mk
            [some 52, some 53, some 54, some 49, some 50, some 51, some 52, some 53] 8, 5) ∧
    (Writer.mk
        [some 52, some 53, some 54, some 49, some 50, some 51, some 52, some 53] 8).writtenSlice
        = [some 52, some 53, some 54, some 49, some 50, some 51, some 52, some 53] ∧
    (Writer.mk
        [some 52, some 53, some 54, some 49, some 50, some 51, some 52, some 53] 8).write
        [49, 51, 51, 55]
        = .ok (Writer.mk
            [some 52, some 53, some 54, some 49, some 50, some 51, some 52, some 53] 8, 0) ∧
    (Writer.mk
        [some 52, some 53, some 54, some 49, some 50, some 51, some 52, some 53] 8).writtenSlice
        = [some 52, some 53, some 54, some 49, some 50, some 51, some 52, some 53] :=
  ⟨rfl, rfl, rfl, rfl, rfl, rfl, rfl, rfl, rfl, rfl, rfl, rfl, rfl⟩

/-- C10: writing the empty byte sequence returns `Ok 0` and leaves the
writer state — `written` and every buffer cell — fully unchanged, for
every state satisfying the structural invariant (in particular for a
zero-capacity or full buffer). -/
theorem write_empty (w : Writer) (h : w.written ≤ w.buffer.length) :
    w.write [] = .ok (w, 0) := by
  simp [Writer.write, copyFrom]

/-- Witness for C10: the empty write is a no-op on a fresh one-cell
writer. -/
theorem write_empty_witness :
    (Writer.mk [none] 0).written ≤ (Writer.mk [none] 0).buffer.length ∧
    (Writer.mk [none] 0).write [] = .ok (Writer.mk [none] 0, 0) :=
  ⟨by decide, write_empty (Writer.mk [none] 0) (by decide)⟩

end Bufio
